import Mathlib

/-!
# Verification of the LSM Monte-Carlo American put pricer

Shallow embedding of the C++ pricing engine
(`lsm_pricer.cpp`, `lsm_pricer_simd.cpp`, `lsm_pricer_arena.cpp`,
`lsm_pricer_mp.cpp`, `lsm_pricer_ultimate.cpp`, `arena_allocator.h`).

Modelling conventions:
* `double` arithmetic is embedded as exact rational arithmetic (`ℚ`);
  Lean's convention `x / 0 = 0` replaces IEEE `NaN`/`inf` in the (never
  observed on valid inputs) degenerate divisions.
* the transcendental functions are abstract parameters
  `exp sqrt : ℚ → ℚ`: every theorem holds for all interpretations,
  with the few analytic facts needed (`exp 0 = 1`, positivity) taken as
  explicit hypotheses.
* the Mersenne-twister normal stream is an abstract draw sequence
  `Z : ℕ → ℚ` consumed in exactly the order the source consumes it;
  for the multithreaded variants, whose draw order depends on the
  OpenMP schedule, the draws are an abstract per-(step, path) family.
* `size_t` is embedded as `ℕ` with explicit `% 2 ^ 64` where the source
  can wrap.
-/

/-- The `Arena` bump allocator of `arena_allocator.h`: a byte region of
fixed capacity (`memory.size()`) and a cursor `offset`. -/
structure Arena where
  capacity : ℕ
  offset : ℕ
  deriving DecidableEq, Repr

/-- `Arena::reset`: rewind the cursor to zero. -/
def Arena.reset (a : Arena) : Arena := { a with offset := 0 }

/-- The bit mask `~(alignment - 1)` of `Arena::allocate`, computed on
64-bit `size_t`. -/
def alignMask (alignment : ℕ) : ℕ := 2 ^ 64 - alignment

/-- `(offset + alignment - 1) & ~(alignment - 1)` from `Arena::allocate`
(`size_t` arithmetic, hence the `% 2 ^ 64`). -/
def alignUp (offset alignment : ℕ) : ℕ :=
  ((offset + alignment - 1) % 2 ^ 64) &&& alignMask alignment

/-- `Arena::allocate(size, alignment)`: align the cursor, fail
(`std::bad_alloc`, the AllocationExhausted condition) if the aligned
region does not fit, otherwise advance the cursor past the region and
return the region's start.  Both the capacity comparison
`aligned_offset + size > memory.size()` and the stored offset compute
`aligned_offset + size` in wrapping `size_t`, hence the `% 2 ^ 64`.
The thrown failure leaves the arena object unchanged, which the
pair-returning embedding makes explicit. -/
def Arena.allocate (a : Arena) (size alignment : ℕ) : Option ℕ × Arena :=
  let aligned_offset := alignUp a.offset alignment
  if a.capacity < (aligned_offset + size) % 2 ^ 64 then (none, a)
  else (some aligned_offset, { a with offset := (aligned_offset + size) % 2 ^ 64 })

/-- The simulation configuration shared by all pricing entry points.
The `seed` argument of the source only feeds the (abstracted) random
stream and is therefore not part of the embedded configuration. -/
structure SimConfig where
  S0 : ℚ
  K : ℚ
  T : ℚ
  r : ℚ
  sigma : ℚ
  num_paths : ℕ
  num_steps : ℕ

/-- `dt = T / static_cast<double>(num_steps)`. -/
def SimConfig.dt (cfg : SimConfig) : ℚ := cfg.T / (cfg.num_steps : ℚ)

/-- `std::max(a, b)`: `b` if `a < b`, else `a`. -/
def fmax (a b : ℚ) : ℚ := if a < b then b else a

/-- `std::abs(x)` on doubles. -/
def fabs (x : ℚ) : ℚ := if x < 0 then -x else x

theorem fmax_eq_max (a b : ℚ) : fmax a b = max a b := by
  unfold fmax
  split
  · exact (max_eq_right (le_of_lt (by assumption))).symm
  · exact (max_eq_left (not_lt.mp (by assumption))).symm

theorem fabs_eq_abs (x : ℚ) : fabs x = |x| := by
  unfold fabs
  split
  · exact (abs_of_neg (by assumption)).symm
  · exact (abs_of_nonneg (not_lt.mp (by assumption))).symm

section Polyfit

/-- The seven power/cross sums accumulated by the loop of `polyfit`. -/
structure PowerSums where
  S_x : ℚ
  S_y : ℚ
  S_xx : ℚ
  S_xy : ℚ
  S_xxx : ℚ
  S_xxy : ℚ
  S_xxxx : ℚ

/-- One iteration of the sum-accumulation loop of `polyfit`. -/
def accumSums (s : PowerSums) (p : ℚ × ℚ) : PowerSums :=
  let xi := p.1
  let yi := p.2
  let xi_2 := xi * xi
  ⟨s.S_x + xi, s.S_y + yi, s.S_xx + xi_2, s.S_xy + xi * yi,
   s.S_xxx + xi * xi_2, s.S_xxy + xi_2 * yi, s.S_xxxx + xi_2 * xi_2⟩

/-- The 3×3 normal-equations system `A·c = b` of `polyfit`, with the
matrix entries `a₀₀ … a₂₂` and right-hand side `b₀ b₁ b₂` as explicit
fields (the source stores `double A[3][3]` and `double b[3]`). -/
structure LinSys3 where
  a00 : ℚ
  a01 : ℚ
  a02 : ℚ
  a10 : ℚ
  a11 : ℚ
  a12 : ℚ
  a20 : ℚ
  a21 : ℚ
  a22 : ℚ
  b0 : ℚ
  b1 : ℚ
  b2 : ℚ

/-- `std::swap(A[0], A[1]); std::swap(b[0], b[1])`. -/
def swap01 (s : LinSys3) : LinSys3 :=
  { s with a00 := s.a10, a01 := s.a11, a02 := s.a12,
           a10 := s.a00, a11 := s.a01, a12 := s.a02,
           b0 := s.b1, b1 := s.b0 }

/-- `std::swap(A[0], A[2]); std::swap(b[0], b[2])`. -/
def swap02 (s : LinSys3) : LinSys3 :=
  { s with a00 := s.a20, a01 := s.a21, a02 := s.a22,
           a20 := s.a00, a21 := s.a01, a22 := s.a02,
           b0 := s.b2, b2 := s.b0 }

/-- `std::swap(A[1], A[2]); std::swap(b[1], b[2])`. -/
def swap12 (s : LinSys3) : LinSys3 :=
  { s with a10 := s.a20, a11 := s.a21, a12 := s.a22,
           a20 := s.a10, a21 := s.a11, a22 := s.a12,
           b1 := s.b2, b2 := s.b1 }

/-- Column-0 partial pivoting of `polyfit`, unrolled: start with
`pivot = 0`, take row 1 if `|A[1][0]| > |A[pivot][0]|`, then row 2 if
`|A[2][0]| > |A[pivot][0]|`, and swap the chosen row with row 0. -/
def pivotCol0 (s : LinSys3) : LinSys3 :=
  if fabs s.a00 < fabs s.a10 then
    (if fabs s.a10 < fabs s.a20 then swap02 s else swap01 s)
  else
    (if fabs s.a00 < fabs s.a20 then swap02 s else s)

/-- Column-0 elimination of `polyfit`, unrolled over rows 1 and 2:
`factor = A[j][0]/A[0][0]; A[j][k] -= factor * A[0][k] (k = 0..2);
b[j] -= factor * b[0]`. -/
def elimCol0 (s : LinSys3) : LinSys3 :=
  let f1 := s.a10 / s.a00
  let s1 := { s with a10 := s.a10 - f1 * s.a00, a11 := s.a11 - f1 * s.a01,
                     a12 := s.a12 - f1 * s.a02, b1 := s.b1 - f1 * s.b0 }
  let f2 := s1.a20 / s1.a00
  { s1 with a20 := s1.a20 - f2 * s1.a00, a21 := s1.a21 - f2 * s1.a01,
            a22 := s1.a22 - f2 * s1.a02, b2 := s1.b2 - f2 * s1.b0 }

/-- Column-1 partial pivoting of `polyfit`: only row 2 competes with
row 1. -/
def pivotCol1 (s : LinSys3) : LinSys3 :=
  if fabs s.a11 < fabs s.a21 then swap12 s else s

/-- Column-1 elimination of `polyfit`: one row, entries `k = 1, 2`
(the source loop starts at `k = i`, leaving `A[2][0]` untouched). -/
def elimCol1 (s : LinSys3) : LinSys3 :=
  let f := s.a21 / s.a11
  { s with a21 := s.a21 - f * s.a11, a22 := s.a22 - f * s.a12,
           b2 := s.b2 - f * s.b1 }

/-- The full elimination loop `for (i = 0; i < 3; ++i)` of `polyfit`.
The `i = 2` iteration is the identity: the pivot scan over `j = 3..2` is
empty, the self-swap does nothing, and no row lies below. -/
def gauss3 (s : LinSys3) : LinSys3 :=
  elimCol1 (pivotCol1 (elimCol0 (pivotCol0 s)))

/-- The back-substitution loop of `polyfit`, unrolled
(`coeffs[i] = (b[i] - sum_{j>i} A[i][j]*coeffs[j]) / A[i][i]`); returns
`(coeffs[0], coeffs[1], coeffs[2])`, lowest power first as the source
array is indexed. -/
def backSub (s : LinSys3) : ℚ × ℚ × ℚ :=
  let c2 := s.b2 / s.a22
  let c1 := (s.b1 - s.a12 * c2) / s.a11
  let c0 := (s.b0 - (s.a01 * c1 + s.a02 * c2)) / s.a00
  (c0, c1, c2)

/-- `polyfit(x, y)` from `lsm_pricer.cpp`: degree-2 least squares via the
3×3 normal equations, Gaussian elimination with partial pivoting, and
back-substitution.  Returns the coefficients highest power first
`{coeffs[2], coeffs[1], coeffs[0]}`, as the source does. -/
def polyfit (xs ys : List ℚ) : ℚ × ℚ × ℚ :=
  let n : ℚ := (xs.length : ℚ)
  let s := (xs.zip ys).foldl accumSums ⟨0, 0, 0, 0, 0, 0, 0⟩
  let sys : LinSys3 :=
    ⟨n, s.S_x, s.S_xx, s.S_x, s.S_xx, s.S_xxx, s.S_xx, s.S_xxx, s.S_xxxx,
     s.S_y, s.S_xy, s.S_xxy⟩
  let c := backSub (gauss3 sys)
  (c.2.2, c.2.1, c.1)

end Polyfit

section Engine

/-- The `break`-terminated forward scan shared by the regression-target
loop and the final pricing loop: walk the time indices `js`, stop at the
first strictly positive cash flow and discount it back to date `t` by
`exp(-r * (j - t) * dt)`; yield `0` if no entry is positive. -/
def futureCF (exp : ℚ → ℚ) (r dt : ℚ) (cf : ℕ → ℚ) (t : ℕ) : List ℕ → ℚ
  | [] => 0
  | j :: js =>
    if 0 < cf j then cf j * exp (-(r * ((j : ℚ) - (t : ℚ)) * dt))
    else futureCF exp r dt cf t js

/-- The regression target `y` of one in-the-money path at date `t`:
the scan of `futureCF` over the interior of the table, `j` from `t + 1`
to `num_steps`. -/
def regressionTarget (exp : ℚ → ℚ) (r dt : ℚ) (M : ℕ) (CF : ℕ → ℕ → ℚ)
    (t i : ℕ) : ℚ :=
  futureCF exp r dt (CF i) t (List.range' (t + 1) (M - t))

/-- The cash-flow table right after terminal initialization:
`cash_flows[i][num_steps] = max(0, K - S[i][num_steps])`, every other
entry still `0` (the table is zero-initialized). -/
def cfInit (K : ℚ) (S : ℕ → ℕ → ℚ) (M : ℕ) : ℕ → ℕ → ℚ :=
  fun i j => if j = M then fmax 0 (K - S i M) else 0

/-- The in-the-money selection at date `t`: the paths `i < N` with
`K - S[i][t] > 0`, in increasing path order. -/
def itmPaths (K : ℚ) (S : ℕ → ℕ → ℚ) (N t : ℕ) : List ℕ :=
  (List.range N).filter (fun i => 0 < K - S i t)

/-- The mutation performed when a path exercises at date `t`:
`cash_flows[i][t] = v` and `cash_flows[i][j] = 0` for `t < j ≤ M`;
all other entries (and all other rows) untouched. -/
def updRow (M t : ℕ) (v : ℚ) (CF : ℕ → ℕ → ℚ) (i : ℕ) : ℕ → ℕ → ℚ :=
  fun i' j =>
    if i' = i then
      if j = t then v else if t < j ∧ j ≤ M then 0 else CF i' j
    else CF i' j

/-- The body of the per-path exercise-decision loop at date `t`, given
the fitted coefficients `c` (highest power first): exercise iff
`intrinsic > continuation`. -/
def exStep (S : ℕ → ℕ → ℚ) (K : ℚ) (M t : ℕ) (c : ℚ × ℚ × ℚ)
    (acc : ℕ → ℕ → ℚ) (i : ℕ) : ℕ → ℕ → ℚ :=
  let x := S i t
  let cont := c.1 * x * x + c.2.1 * x + c.2.2
  let intr := fmax 0 (K - S i t)
  if cont < intr then updRow M t intr acc i else acc

/-- One interior exercise date `t` of the backward induction: collect the
in-the-money paths, skip the date when none, otherwise fit the quadratic
on the (spot, discounted-future-cash-flow) pairs and apply the exercise
decision to each selected path. -/
def exDate (exp : ℚ → ℚ) (K r dt : ℚ) (S : ℕ → ℕ → ℚ) (N M : ℕ)
    (CF : ℕ → ℕ → ℚ) (t : ℕ) : ℕ → ℕ → ℚ :=
  let itm := itmPaths K S N t
  if itm.isEmpty then CF
  else
    let xs := itm.map (fun i => S i t)
    let ys := itm.map (fun i => regressionTarget exp r dt M CF t i)
    let c := polyfit xs ys
    itm.foldl (exStep S K M t c) CF

/-- The backward-induction loop `for (t = num_steps - 1; t > 0; --t)`:
`runFrom ⋯ t CF` processes the dates `t, t-1, …, 1`. -/
def runFrom (exp : ℚ → ℚ) (K r dt : ℚ) (S : ℕ → ℕ → ℚ) (N M : ℕ) :
    ℕ → (ℕ → ℕ → ℚ) → (ℕ → ℕ → ℚ)
  | 0, CF => CF
  | t + 1, CF => runFrom exp K r dt S N M t (exDate exp K r dt S N M CF (t + 1))

/-- The cash-flow table after the complete backward induction. -/
def finalCF (exp : ℚ → ℚ) (K r dt : ℚ) (S : ℕ → ℕ → ℚ) (N M : ℕ) :
    ℕ → ℕ → ℚ :=
  runFrom exp K r dt S N M (M - 1) (cfInit K S M)

/-- The final aggregation: for each path the first positive cash flow,
discounted to time 0 (`exp(-r * j * dt)`, i.e. the `t = 0` instance of
the shared scan), summed over paths and divided by `num_paths`. -/
def lsmPrice (exp : ℚ → ℚ) (K r dt : ℚ) (S : ℕ → ℕ → ℚ) (N M : ℕ) : ℚ :=
  ((List.range N).foldl
      (fun total_payoff i =>
        total_payoff + futureCF exp r dt (finalCF exp K r dt S N M i) 0 (List.range' 1 M))
      0) / (N : ℚ)

end Engine

section Variants

/-- The forward lattice of the scalar pricer `price_american_put_lsm_cpp`
(path-major storage, one sequential stream): path `i`, step `j + 1`
consumes draw number `i * num_steps + j`. -/
def S_cpp (exp sqrt : ℚ → ℚ) (cfg : SimConfig) (Z : ℕ → ℚ) (i : ℕ) : ℕ → ℚ
  | 0 => cfg.S0
  | j + 1 =>
    S_cpp exp sqrt cfg Z i j *
      exp ((cfg.r - 0.5 * cfg.sigma * cfg.sigma) * cfg.dt +
        cfg.sigma * sqrt cfg.dt * Z (i * cfg.num_steps + j))

/-- The forward lattice of `price_american_put_lsm_simd` (time-major
storage): at outer step `j + 1` the buffer of fresh draws is filled in
path order, so path `i` consumes draw number `j * num_paths + i`. -/
def S_simd (exp sqrt : ℚ → ℚ) (cfg : SimConfig) (Z : ℕ → ℚ) (i : ℕ) : ℕ → ℚ
  | 0 => cfg.S0
  | j + 1 =>
    S_simd exp sqrt cfg Z i j *
      exp ((cfg.r - 0.5 * cfg.sigma * cfg.sigma) * cfg.dt +
        cfg.sigma * sqrt cfg.dt * Z (j * cfg.num_paths + i))

/-- The forward lattice of the multithreaded variants
(`price_american_put_lsm_mp`, `price_american_put_lsm_ultimate`): the
same geometric-Brownian update, with the draw of path `i` at step `j`
taken from an abstract family `Z2 j i`, since the assignment of draws to
(path, step) pairs depends on the OpenMP schedule (spec §9). -/
def S_ult (exp sqrt : ℚ → ℚ) (cfg : SimConfig) (Z2 : ℕ → ℕ → ℚ) (i : ℕ) : ℕ → ℚ
  | 0 => cfg.S0
  | j + 1 =>
    S_ult exp sqrt cfg Z2 i j *
      exp ((cfg.r - 0.5 * cfg.sigma * cfg.sigma) * cfg.dt +
        cfg.sigma * sqrt cfg.dt * Z2 (j + 1) i)

/-- `price_american_put_lsm_cpp`: the scalar entry point.  Note that the
source performs no configuration validation whatsoever — the function is
total. -/
def price_american_put_lsm_cpp (exp sqrt : ℚ → ℚ) (Z : ℕ → ℚ)
    (cfg : SimConfig) : ℚ :=
  lsmPrice exp cfg.K cfg.r cfg.dt (S_cpp exp sqrt cfg Z) cfg.num_paths cfg.num_steps

/-- `price_american_put_lsm_arena`: identical algorithm and identical
sequential draw order as the scalar variant; only the storage strategy
(arena scratch buffers) differs, which the value-level embedding does not
see. -/
def price_american_put_lsm_arena (exp sqrt : ℚ → ℚ) (Z : ℕ → ℚ)
    (cfg : SimConfig) : ℚ :=
  lsmPrice exp cfg.K cfg.r cfg.dt (S_cpp exp sqrt cfg Z) cfg.num_paths cfg.num_steps

/-- The single error the pricing entry points can raise by design:
`std::runtime_error("Number of paths must be a multiple of SIMD batch size.")`,
surfaced by the bindings as a `ValueError` (the spec's
ConfigurationError). -/
inductive PricerError where
  | laneMismatch
  deriving DecidableEq, Repr

/-- `price_american_put_lsm_simd`: rejects `num_paths` not divisible by
the SIMD lane width (`batch_size`, a platform constant kept abstract as
`lane`) before anything else, then prices on the time-major lattice. -/
def price_american_put_lsm_simd (lane : ℕ) (exp sqrt : ℚ → ℚ) (Z : ℕ → ℚ)
    (cfg : SimConfig) : Except PricerError ℚ :=
  if cfg.num_paths % lane = 0 then
    .ok (lsmPrice exp cfg.K cfg.r cfg.dt (S_simd exp sqrt cfg Z)
      cfg.num_paths cfg.num_steps)
  else .error .laneMismatch

/-- The value computed by `price_american_put_lsm_ultimate` (assuming the
arena is large enough for the scratch buffers; exhaustion aborts the call
with `std::bad_alloc` and no price).  The lane-width check precedes all
computation exactly as in the SIMD variant. -/
def price_american_put_lsm_ultimate (lane : ℕ) (exp sqrt : ℚ → ℚ)
    (Z2 : ℕ → ℕ → ℚ) (cfg : SimConfig) : Except PricerError ℚ :=
  if cfg.num_paths % lane = 0 then
    .ok (lsmPrice exp cfg.K cfg.r cfg.dt (S_ult exp sqrt cfg Z2)
      cfg.num_paths cfg.num_steps)
  else .error .laneMismatch

/-- The state of a caller-supplied arena at the moment
`price_american_put_lsm_ultimate` throws the lane-width error, `none`
when the check passes.  In the source (`lsm_pricer_ultimate.cpp`,
lines 18–26) `arena.reset()` runs before the divisibility check, so the
arena observed by the caller catching the error is the reset one. -/
def ultimate_arena_at_failure (lane : ℕ) (cfg : SimConfig) (a : Arena) :
    Option Arena :=
  let a1 := a.reset
  if cfg.num_paths % lane = 0 then none else some a1

end Variants

section Helpers

/-- The running-total loop of the final aggregation is the sum over the
path range. -/
theorem foldl_add_eq_sum (f : ℕ → ℚ) (c : ℚ) (N : ℕ) :
    (List.range N).foldl (fun acc i => acc + f i) c = c + ∑ i ∈ Finset.range N, f i := by
  induction N generalizing c with
  | zero => simp
  | succ n ih =>
    rw [List.range_succ, List.foldl_append, ih, Finset.sum_range_succ]
    simp [add_assoc]

/-- The shared forward scan returns the first strictly positive entry of
the scanned indices, discounted back to date `t`, and `0` if none is
positive. -/
theorem futureCF_eq_find (exp : ℚ → ℚ) (r dt : ℚ) (cf : ℕ → ℚ) (t : ℕ) :
    ∀ js : List ℕ,
      futureCF exp r dt cf t js =
        match js.find? (fun j => decide (0 < cf j)) with
        | none => 0
        | some j => cf j * exp (-(r * ((j : ℚ) - (t : ℚ)) * dt))
  | [] => rfl
  | j :: js => by
    rw [futureCF, List.find?_cons]
    by_cases h : 0 < cf j
    · simp [h]
    · simp [h, futureCF_eq_find exp r dt cf t js]

end Helpers

/-- **C7.** At every interior exercise date `t`, the regression target of
a selected path equals the discounted first positive future cash flow of
that path: the scan runs over exactly the indices `t + 1 … num_steps`,
stops at the first index `j` whose entry is positive, discounts that
entry by `exp(-r·(j-t)·dt)`, and yields `0` when no future entry is
positive. -/
theorem c7_regression_target (exp : ℚ → ℚ) (r dt : ℚ) (M : ℕ) (CF : ℕ → ℕ → ℚ)
    (t i : ℕ) :
    (∀ j, j ∈ List.range' (t + 1) (M - t) ↔ t + 1 ≤ j ∧ j ≤ M) ∧
    regressionTarget exp r dt M CF t i =
      match (List.range' (t + 1) (M - t)).find? (fun j => decide (0 < CF i j)) with
      | none => 0
      | some j => CF i j * exp (-(r * ((j : ℚ) - (t : ℚ)) * dt)) := by
  constructor
  · intro j
    rw [List.mem_range'_1]
    omega
  · exact futureCF_eq_find exp r dt (CF i) t _

/-- **C8.** In every variant, every lattice entry at time 0 equals `S0`. -/
theorem c8_lattice_time_zero (exp sqrt : ℚ → ℚ) (Z : ℕ → ℚ) (Z2 : ℕ → ℕ → ℚ)
    (cfg : SimConfig) (i : ℕ) (_hi : i < cfg.num_paths) :
    S_cpp exp sqrt cfg Z i 0 = cfg.S0 ∧
    S_simd exp sqrt cfg Z i 0 = cfg.S0 ∧
    S_ult exp sqrt cfg Z2 i 0 = cfg.S0 :=
  ⟨rfl, rfl, rfl⟩

/-- Witness for C8 at a concrete configuration. -/
theorem c8_witness :
    S_cpp (fun _ => 1) (fun _ => 1) ⟨1, 2, 1, 0, 0, 1, 1⟩ (fun _ => 0) 0 0 = 1 :=
  (c8_lattice_time_zero (fun _ => 1) (fun _ => 1) (fun _ => 0) (fun _ _ => 0)
    ⟨1, 2, 1, 0, 0, 1, 1⟩ 0 (by decide)).1

section ArenaProofs

/-- Clearing the low `k` bits with the 64-bit mask `2^64 - 2^k` rounds a
number below `2^64` down to a multiple of `2^k`. -/
theorem land_high_mask (k n : ℕ) (hk : k ≤ 64) (hn : n < 2 ^ 64) :
    n &&& (2 ^ 64 - 2 ^ k) = 2 ^ k * (n / 2 ^ k) := by
  apply Nat.eq_of_testBit_eq
  intro i
  have hsplit : 2 ^ k * 2 ^ (64 - k) = 2 ^ 64 := by
    rw [← pow_add, Nat.add_sub_cancel' hk]
  have hmask : 2 ^ 64 - 2 ^ k = 2 ^ k * (2 ^ (64 - k) - 1) := by
    rw [Nat.mul_sub, hsplit, Nat.mul_one]
  rw [Nat.testBit_land, hmask, Nat.testBit_mul_pow_two, Nat.testBit_mul_pow_two,
    Nat.testBit_two_pow_sub_one]
  have hdiv : (n / 2 ^ k).testBit (i - k) = n.testBit (k + (i - k)) := by
    rw [← Nat.shiftRight_eq_div_pow, Nat.testBit_shiftRight]
  by_cases hik : k ≤ i
  · have hki : k + (i - k) = i := by omega
    rw [hdiv, hki]
    by_cases hiw : i < 64
    · have h1 : i - k < 64 - k := by omega
      simp [hik, hiw, h1, Bool.and_comm]
    · have hbit : n.testBit i = false :=
        Nat.testBit_lt_two_pow
          (lt_of_lt_of_le hn (Nat.pow_le_pow_right (by norm_num) (by omega)))
      have h2 : ¬(i - k < 64 - k) := by omega
      simp [hbit, h2]
  · simp [hik]

/-- **C9 (amended).** For every `allocate(size, alignment)` request with
a power-of-two alignment (as every `alignof` is) and no `size_t`
wraparound — neither in the align-up expression nor in
`aligned_offset + size` — `allocate` rounds the current offset up to
the least multiple of the alignment at or above it; when the aligned
offset plus the size fits in the capacity it returns that offset and
advances the cursor past the region, otherwise it fails
(AllocationExhausted) with the arena unchanged.  Requests whose
`aligned_offset + size` wraps are excluded: there the source's wrapped
comparison grants the request instead of throwing (see the
counterexample). -/
theorem c9_allocate_spec (a : Arena) (size alignment k : ℕ)
    (hal : alignment = 2 ^ k) (hov : a.offset + alignment ≤ 2 ^ 64)
    (hsz : alignUp a.offset alignment + size < 2 ^ 64) :
    alignUp a.offset alignment % alignment = 0 ∧
    a.offset ≤ alignUp a.offset alignment ∧
    alignUp a.offset alignment < a.offset + alignment ∧
    (alignUp a.offset alignment + size ≤ a.capacity →
      a.allocate size alignment =
        (some (alignUp a.offset alignment),
         ⟨a.capacity, alignUp a.offset alignment + size⟩)) ∧
    (a.capacity < alignUp a.offset alignment + size →
      a.allocate size alignment = (none, a)) := by
  subst hal
  have hpos : 0 < 2 ^ k := Nat.pos_pow_of_pos k (by norm_num)
  have hk64 : k ≤ 64 := by
    by_contra hgt
    have : 2 ^ 64 < 2 ^ k := Nat.pow_lt_pow_right (by norm_num) (by omega)
    omega
  have hn : a.offset + 2 ^ k - 1 < 2 ^ 64 := by omega
  have hUp : alignUp a.offset (2 ^ k) =
      2 ^ k * ((a.offset + 2 ^ k - 1) / 2 ^ k) := by
    rw [alignUp, alignMask, Nat.mod_eq_of_lt hn]
    exact land_high_mask k _ hk64 hn
  have hdm := Nat.div_add_mod (a.offset + 2 ^ k - 1) (2 ^ k)
  have hmlt : (a.offset + 2 ^ k - 1) % 2 ^ k < 2 ^ k := Nat.mod_lt _ hpos
  refine ⟨?_, ?_, ?_, ?_, ?_⟩
  · rw [hUp]
    exact Nat.mul_mod_right _ _
  · rw [hUp]
    omega
  · rw [hUp]
    omega
  · intro hfit
    simp only [Arena.allocate]
    rw [Nat.mod_eq_of_lt hsz]
    simp only [if_neg (not_lt.mpr hfit)]
  · intro hexh
    simp only [Arena.allocate]
    rw [Nat.mod_eq_of_lt hsz]
    simp only [if_pos hexh]

/-- Witness for C9 at concrete requests: one success, one exhaustion. -/
theorem c9_witness :
    Arena.allocate ⟨100, 5⟩ 10 8 = (some 8, ⟨100, 18⟩) ∧
    Arena.allocate ⟨15, 5⟩ 10 8 = (none, ⟨15, 5⟩) := by
  have h8 : alignUp 5 8 = 8 := by decide
  constructor
  · have h := (c9_allocate_spec ⟨100, 5⟩ 10 8 3 (by norm_num) (by norm_num)
      (by rw [show alignUp (⟨100, 5⟩ : Arena).offset 8 = 8 from h8]; norm_num)).2.2.2.1
    rw [show (⟨100, 5⟩ : Arena).offset = 5 from rfl, h8] at h
    exact h (by norm_num)
  · have h := (c9_allocate_spec ⟨15, 5⟩ 10 8 3 (by norm_num) (by norm_num)
      (by rw [show alignUp (⟨15, 5⟩ : Arena).offset 8 = 8 from h8]; norm_num)).2.2.2.2
    rw [show (⟨15, 5⟩ : Arena).offset = 5 from rfl, h8] at h
    exact h (by norm_num)

/-- Counterexample to C9 as stated: at offset 5, alignment 8 and size
`2^64 - 8`, the mathematical `aligned_offset + size` is `2^64`, far
beyond the capacity 100, so the claim demands an AllocationExhausted
failure with the offset unchanged — but the source adds in wrapping
`size_t`, the comparison sees `0 ≤ 100`, and the call succeeds,
returning region 8 and setting the arena's offset to the wrapped
value 0. -/
theorem c9_counterexample :
    Arena.allocate ⟨100, 5⟩ (2 ^ 64 - 8) 8 = (some 8, ⟨100, 0⟩) ∧
    100 < alignUp 5 8 + (2 ^ 64 - 8) := by
  constructor
  · decide
  · decide

end ArenaProofs

section ForwardProofs

/-- Uniqueness of the path-major draw assignment `(i, j) ↦ i * M + j`
used by the sequential scalar stream. -/
theorem pathMajor_draw_inj (M i₁ j₁ i₂ j₂ : ℕ) (h₁ : j₁ < M) (h₂ : j₂ < M)
    (h : i₁ * M + j₁ = i₂ * M + j₂) : i₁ = i₂ ∧ j₁ = j₂ := by
  have hM : 0 < M := by omega
  have e₁ : (i₁ * M + j₁) / M = i₁ := by
    rw [Nat.mul_comm, Nat.mul_add_div hM, Nat.div_eq_of_lt h₁, Nat.add_zero]
  have e₂ : (i₂ * M + j₂) / M = i₂ := by
    rw [Nat.mul_comm, Nat.mul_add_div hM, Nat.div_eq_of_lt h₂, Nat.add_zero]
  have hii : i₁ = i₂ := by rw [← e₁, ← e₂, h]
  subst hii
  exact ⟨rfl, by omega⟩

/-- **C6.** Every variant computes the forward lattice by the geometric
Brownian recurrence `S[i,j] = S[i,j-1] · exp((r − σ²/2)·dt + σ·√dt·Z)`
with `dt = T / num_steps` and initial condition `S[i,0] = S0`; in the
scalar and SIMD variants each `(path, step)` pair consumes its own fresh
draw of the stream (the draw-index maps are injective on the lattice);
in the multithreaded variants the draw family is indexed by
`(step, path)` directly. -/
theorem c6_forward_recurrence (exp sqrt : ℚ → ℚ) (Z : ℕ → ℚ) (Z2 : ℕ → ℕ → ℚ)
    (cfg : SimConfig) :
    cfg.dt = cfg.T / (cfg.num_steps : ℚ) ∧
    (∀ i, S_cpp exp sqrt cfg Z i 0 = cfg.S0) ∧
    (∀ i j, S_cpp exp sqrt cfg Z i (j + 1) =
      S_cpp exp sqrt cfg Z i j *
        exp ((cfg.r - 0.5 * cfg.sigma * cfg.sigma) * cfg.dt +
          cfg.sigma * sqrt cfg.dt * Z (i * cfg.num_steps + j))) ∧
    (∀ i₁ j₁ i₂ j₂, j₁ < cfg.num_steps → j₂ < cfg.num_steps →
      i₁ * cfg.num_steps + j₁ = i₂ * cfg.num_steps + j₂ → i₁ = i₂ ∧ j₁ = j₂) ∧
    (∀ i, S_simd exp sqrt cfg Z i 0 = cfg.S0) ∧
    (∀ i j, S_simd exp sqrt cfg Z i (j + 1) =
      S_simd exp sqrt cfg Z i j *
        exp ((cfg.r - 0.5 * cfg.sigma * cfg.sigma) * cfg.dt +
          cfg.sigma * sqrt cfg.dt * Z (j * cfg.num_paths + i))) ∧
    (∀ i₁ j₁ i₂ j₂, i₁ < cfg.num_paths → i₂ < cfg.num_paths →
      j₁ * cfg.num_paths + i₁ = j₂ * cfg.num_paths + i₂ → i₁ = i₂ ∧ j₁ = j₂) ∧
    (∀ i, S_ult exp sqrt cfg Z2 i 0 = cfg.S0) ∧
    (∀ i j, S_ult exp sqrt cfg Z2 i (j + 1) =
      S_ult exp sqrt cfg Z2 i j *
        exp ((cfg.r - 0.5 * cfg.sigma * cfg.sigma) * cfg.dt +
          cfg.sigma * sqrt cfg.dt * Z2 (j + 1) i)) := by
  refine ⟨rfl, fun i => rfl, fun i j => rfl, ?_, fun i => rfl, fun i j => rfl,
    ?_, fun i => rfl, fun i j => rfl⟩
  · intro i₁ j₁ i₂ j₂ h₁ h₂ h
    exact pathMajor_draw_inj cfg.num_steps i₁ j₁ i₂ j₂ h₁ h₂ h
  · intro i₁ j₁ i₂ j₂ h₁ h₂ h
    have := pathMajor_draw_inj cfg.num_paths j₁ i₁ j₂ i₂ h₁ h₂ h
    exact ⟨this.2, this.1⟩

/-- Witness for C6: the draw-freshness conjunct applied at a concrete
configuration and concrete indices. -/
theorem c6_witness : (0 : ℕ) = 0 ∧ (0 : ℕ) = 0 :=
  (c6_forward_recurrence (fun _ => 1) (fun _ => 1) (fun _ => 0) (fun _ _ => 0)
      ⟨1, 2, 1, 0, 0, 1, 1⟩).2.2.2.1 0 0 0 0 (by decide) (by decide) rfl

end ForwardProofs

section ReductionProofs

/-- The scan over a single index, with the trailing empty scan folded in. -/
theorem futureCF_singleton (exp : ℚ → ℚ) (r dt : ℚ) (cf : ℕ → ℚ) (t j : ℕ) :
    futureCF exp r dt cf t [j] =
      if 0 < cf j then cf j * exp (-(r * ((j : ℚ) - (t : ℚ)) * dt)) else 0 := rfl

/-- **C4.** With `num_steps = 1` the backward-induction loop body never
runs, and the returned price is the average over all paths of the
discounted terminal payoff `max(0, K - S[i,1]) · exp(-r·dt)` — the pure
European put estimate. -/
theorem c4_single_step_european (exp sqrt : ℚ → ℚ) (Z : ℕ → ℚ)
    (cfg : SimConfig) (hM : cfg.num_steps = 1) :
    (∀ CF, runFrom exp cfg.K cfg.r cfg.dt (S_cpp exp sqrt cfg Z)
        cfg.num_paths cfg.num_steps (cfg.num_steps - 1) CF = CF) ∧
    price_american_put_lsm_cpp exp sqrt Z cfg =
      (∑ i ∈ Finset.range cfg.num_paths,
        max 0 (cfg.K - S_cpp exp sqrt cfg Z i 1) * exp (-(cfg.r * cfg.dt))) /
        (cfg.num_paths : ℚ) := by
  constructor
  · intro CF
    rw [hM]
    rfl
  · unfold price_american_put_lsm_cpp lsmPrice
    rw [foldl_add_eq_sum, zero_add]
    refine congrArg (· / ((cfg.num_paths : ℚ))) ?_
    refine Finset.sum_congr rfl ?_
    intro i _
    have hfin : finalCF exp cfg.K cfg.r cfg.dt (S_cpp exp sqrt cfg Z)
        cfg.num_paths cfg.num_steps =
        cfInit cfg.K (S_cpp exp sqrt cfg Z) cfg.num_steps := by
      unfold finalCF
      rw [hM]
      rfl
    rw [hfin, hM]
    rw [show List.range' 1 1 = [1] from rfl, futureCF_singleton]
    have hcf : cfInit cfg.K (S_cpp exp sqrt cfg Z) 1 i 1 =
        max 0 (cfg.K - S_cpp exp sqrt cfg Z i 1) := by
      simp [cfInit, fmax_eq_max]
    rw [hcf]
    by_cases hp : 0 < max 0 (cfg.K - S_cpp exp sqrt cfg Z i 1)
    · rw [if_pos hp]
      have harg : -(cfg.r * (((1 : ℕ) : ℚ) - ((0 : ℕ) : ℚ)) * cfg.dt) =
          -(cfg.r * cfg.dt) := by
        push_cast
        ring
      rw [harg]
    · rw [if_neg hp]
      have h0 : max 0 (cfg.K - S_cpp exp sqrt cfg Z i 1) = 0 :=
        le_antisymm (not_lt.mp hp) (le_max_left _ _)
      rw [h0, zero_mul]

/-- Witness for C4 at a concrete one-step configuration. -/
theorem c4_witness :
    price_american_put_lsm_cpp (fun _ => 1) (fun _ => 1) (fun _ => 0)
        ⟨1, 2, 1, 0, 0, 1, 1⟩ =
      (∑ i ∈ Finset.range 1,
        max 0 ((2 : ℚ) -
          S_cpp (fun _ => 1) (fun _ => 1) ⟨1, 2, 1, 0, 0, 1, 1⟩ (fun _ => 0) i 1) * 1) /
        ((1 : ℕ) : ℚ) :=
  (c4_single_step_european (fun _ => 1) (fun _ => 1) (fun _ => 0)
    ⟨1, 2, 1, 0, 0, 1, 1⟩ rfl).2

end ReductionProofs

section SingleExercise

/-- Number of nonzero cash-flow entries of path `i` among the exercise
dates `1 … M`. -/
def nonzeroCount (CF : ℕ → ℕ → ℚ) (M i : ℕ) : ℕ :=
  ((Finset.Icc 1 M).filter (fun j => CF i j ≠ 0)).card

theorem nonzeroCount_congr {CF CF' : ℕ → ℕ → ℚ} (M i : ℕ)
    (h : CF i = CF' i) : nonzeroCount CF M i = nonzeroCount CF' M i := by
  unfold nonzeroCount
  rw [h]

/-- The exercise update for path `a` does not touch any other row. -/
theorem exStep_row_other (S : ℕ → ℕ → ℚ) (K : ℚ) (M t : ℕ) (c : ℚ × ℚ × ℚ)
    (CF : ℕ → ℕ → ℚ) (a i : ℕ) (hia : i ≠ a) :
    exStep S K M t c CF a i = CF i := by
  unfold exStep
  split
  · funext j
    simp [updRow, hia]
  · rfl

/-- Folding the exercise update over paths not containing `i` leaves
row `i` unchanged. -/
theorem foldl_exStep_not_mem (S : ℕ → ℕ → ℚ) (K : ℚ) (M t : ℕ)
    (c : ℚ × ℚ × ℚ) :
    ∀ (l : List ℕ) (CF : ℕ → ℕ → ℚ) (i : ℕ), i ∉ l →
      (l.foldl (exStep S K M t c) CF) i = CF i
  | [], CF, i, _ => rfl
  | a :: l, CF, i, h => by
    have hia : i ≠ a := by
      intro e
      exact h (e ▸ List.mem_cons_self a l)
    have hl : i ∉ l := fun e => h (List.mem_cons_of_mem a e)
    rw [List.foldl_cons, foldl_exStep_not_mem S K M t c l _ i hl,
      exStep_row_other S K M t c CF a i hia]

/-- Row `i` after the whole per-date fold equals the one-shot exercise
update of the original table, provided the fold list has no duplicate
paths (as the in-the-money selection never has). -/
theorem foldl_exStep_mem (S : ℕ → ℕ → ℚ) (K : ℚ) (M t : ℕ)
    (c : ℚ × ℚ × ℚ) :
    ∀ (l : List ℕ) (CF : ℕ → ℕ → ℚ) (i : ℕ), l.Nodup → i ∈ l →
      (l.foldl (exStep S K M t c) CF) i = (exStep S K M t c CF i) i
  | [], _, i, _, h => absurd h (List.not_mem_nil i)
  | a :: l, CF, i, hnd, h => by
    rw [List.foldl_cons]
    rcases List.mem_cons.mp h with he | hl
    · subst he
      have hnl : i ∉ l := (List.nodup_cons.mp hnd).1
      rw [foldl_exStep_not_mem S K M t c l _ i hnl]
    · have hia : i ≠ a := by
        intro e
        exact (List.nodup_cons.mp hnd).1 (e ▸ hl)
      rw [foldl_exStep_mem S K M t c l _ i (List.nodup_cons.mp hnd).2 hl]
      have hrow : exStep S K M t c CF a i = CF i :=
        exStep_row_other S K M t c CF a i hia
      generalize hg : exStep S K M t c CF a = CF₁ at hrow ⊢
      simp only [exStep, fmax_eq_max]
      by_cases hc : c.1 * S i t * S i t + c.2.1 * S i t + c.2.2 < max 0 (K - S i t)
      · rw [if_pos hc, if_pos hc]
        funext j
        unfold updRow
        rw [hrow]
      · rw [if_neg hc, if_neg hc]
        exact hrow

/-- The in-the-money selection has no duplicate paths. -/
theorem itmPaths_nodup (K : ℚ) (S : ℕ → ℕ → ℚ) (N t : ℕ) :
    (itmPaths K S N t).Nodup :=
  (List.nodup_range N).filter _

/-- Row `i` is unchanged by an exercise date that does not select it. -/
theorem exDate_row_not_mem (exp : ℚ → ℚ) (K r dt : ℚ) (S : ℕ → ℕ → ℚ)
    (N M : ℕ) (CF : ℕ → ℕ → ℚ) (t i : ℕ) (h : i ∉ itmPaths K S N t) :
    (exDate exp K r dt S N M CF t) i = CF i := by
  unfold exDate
  split
  · rfl
  · exact foldl_exStep_not_mem _ _ _ _ _ _ _ _ h

/-- Row `i` of a selected path after the exercise date equals the
one-shot exercise update with the fitted coefficients. -/
theorem exDate_row_mem (exp : ℚ → ℚ) (K r dt : ℚ) (S : ℕ → ℕ → ℚ)
    (N M : ℕ) (CF : ℕ → ℕ → ℚ) (t i : ℕ) (h : i ∈ itmPaths K S N t) :
    (exDate exp K r dt S N M CF t) i =
      (exStep S K M t
        (polyfit ((itmPaths K S N t).map (fun i => S i t))
          ((itmPaths K S N t).map (fun i => regressionTarget exp r dt M CF t i)))
        CF i) i := by
  unfold exDate
  split
  · rename_i hemp
    rw [List.isEmpty_iff] at hemp
    rw [hemp] at h
    exact absurd h (List.not_mem_nil i)
  · exact foldl_exStep_mem _ _ _ _ _ _ _ _ (itmPaths_nodup K S N t) h

/-- The exercised row has zeros strictly below the exercise date
(provided it had zeros up to the date before the update) and at most one
nonzero entry afterwards. -/
theorem exStep_inv (S : ℕ → ℕ → ℚ) (K : ℚ) (M t : ℕ) (c : ℚ × ℚ × ℚ)
    (CF : ℕ → ℕ → ℚ) (i : ℕ)
    (hz : ∀ j, 1 ≤ j → j ≤ t → CF i j = 0)
    (hcnt : nonzeroCount CF M i ≤ 1) :
    (∀ j, 1 ≤ j → j + 1 ≤ t → (exStep S K M t c CF i) i j = 0) ∧
    nonzeroCount (exStep S K M t c CF i) M i ≤ 1 := by
  simp only [exStep, fmax_eq_max]
  by_cases hc : c.1 * S i t * S i t + c.2.1 * S i t + c.2.2 < max 0 (K - S i t)
  · rw [if_pos hc]
    have hval : ∀ j, (updRow M t (max 0 (K - S i t)) CF i) i j =
        if j = t then max 0 (K - S i t) else if t < j ∧ j ≤ M then 0 else CF i j := by
      intro j
      simp [updRow]
    constructor
    · intro j h1 h2
      rw [hval j, if_neg (by omega : ¬j = t), if_neg (by omega : ¬(t < j ∧ j ≤ M))]
      exact hz j h1 (by omega)
    · have hsub : ((Finset.Icc 1 M).filter
          (fun j => (updRow M t (max 0 (K - S i t)) CF i) i j ≠ 0)) ⊆ {t} := by
        intro j hj
        rcases Finset.mem_filter.mp hj with ⟨hjm, hjnz⟩
        rcases Finset.mem_Icc.mp hjm with ⟨hj1, hjM⟩
        rw [Finset.mem_singleton]
        by_contra hne
        by_cases hlt : t < j
        · exact hjnz (by rw [hval j, if_neg hne, if_pos ⟨hlt, hjM⟩])
        · exact hjnz (by
            rw [hval j, if_neg hne, if_neg (fun h => hlt h.1)]
            exact hz j hj1 (by omega))
      calc ((Finset.Icc 1 M).filter
            (fun j => (updRow M t (max 0 (K - S i t)) CF i) i j ≠ 0)).card
          ≤ ({t} : Finset ℕ).card := Finset.card_le_card hsub
        _ = 1 := Finset.card_singleton t
  · rw [if_neg hc]
    exact ⟨fun j h1 h2 => hz j h1 (by omega), hcnt⟩

/-- One exercise date preserves the backward-induction invariant:
interior entries strictly below the processed date stay zero and every
row keeps at most one nonzero entry. -/
theorem exDate_inv (exp : ℚ → ℚ) (K r dt : ℚ) (S : ℕ → ℕ → ℚ) (N M : ℕ)
    (CF : ℕ → ℕ → ℚ) (t : ℕ)
    (hz : ∀ i j, 1 ≤ j → j ≤ t → CF i j = 0)
    (hcnt : ∀ i, nonzeroCount CF M i ≤ 1) :
    (∀ i j, 1 ≤ j → j + 1 ≤ t → (exDate exp K r dt S N M CF t) i j = 0) ∧
    (∀ i, nonzeroCount (exDate exp K r dt S N M CF t) M i ≤ 1) := by
  constructor
  · intro i j h1 h2
    by_cases hmem : i ∈ itmPaths K S N t
    · rw [congrFun (exDate_row_mem exp K r dt S N M CF t i hmem) j]
      exact (exStep_inv S K M t _ CF i (hz i) (hcnt i)).1 j h1 h2
    · rw [congrFun (exDate_row_not_mem exp K r dt S N M CF t i hmem) j]
      exact hz i j h1 (by omega)
  · intro i
    by_cases hmem : i ∈ itmPaths K S N t
    · rw [nonzeroCount_congr M i (exDate_row_mem exp K r dt S N M CF t i hmem)]
      exact (exStep_inv S K M t _ CF i (hz i) (hcnt i)).2
    · rw [nonzeroCount_congr M i (exDate_row_not_mem exp K r dt S N M CF t i hmem)]
      exact hcnt i

/-- The whole backward induction keeps every row at no more than one
nonzero cash flow. -/
theorem runFrom_cnt (exp : ℚ → ℚ) (K r dt : ℚ) (S : ℕ → ℕ → ℚ) (N M : ℕ) :
    ∀ (t : ℕ) (CF : ℕ → ℕ → ℚ),
      (∀ i j, 1 ≤ j → j ≤ t → CF i j = 0) →
      (∀ i, nonzeroCount CF M i ≤ 1) →
      ∀ i, nonzeroCount (runFrom exp K r dt S N M t CF) M i ≤ 1
  | 0, CF, _, hcnt, i => hcnt i
  | t + 1, CF, hz, hcnt, i => by
    have hstep := exDate_inv exp K r dt S N M CF (t + 1) hz hcnt
    exact runFrom_cnt exp K r dt S N M t (exDate exp K r dt S N M CF (t + 1))
      (fun i j h1 h2 => hstep.1 i j h1 (by omega)) hstep.2 i

/-- **C1.** For every configuration and every lattice (hence for every
variant), the completed pricing call leaves at most one nonzero entry
per path in the cash-flow table; and whenever an interior exercise date
records a cash flow at `(i, t)`, every later entry `(i, j)`, `t < j ≤ M`,
of that path is zero immediately afterwards. -/
theorem c1_single_exercise (exp : ℚ → ℚ) (K r dt : ℚ) (S : ℕ → ℕ → ℚ)
    (N M : ℕ) :
    (∀ i, nonzeroCount (finalCF exp K r dt S N M) M i ≤ 1) ∧
    (∀ (CF : ℕ → ℕ → ℚ) (t i : ℕ),
      (exDate exp K r dt S N M CF t) i t ≠ CF i t →
      ∀ j, t < j → j ≤ M → (exDate exp K r dt S N M CF t) i j = 0) := by
  constructor
  · intro i
    unfold finalCF
    refine runFrom_cnt exp K r dt S N M (M - 1) (cfInit K S M) ?_ ?_ i
    · intro i j h1 h2
      simp only [cfInit]
      rw [if_neg (by omega : ¬j = M)]
    · intro i
      have hsub : ((Finset.Icc 1 M).filter (fun j => cfInit K S M i j ≠ 0)) ⊆ {M} := by
        intro j hj
        rcases Finset.mem_filter.mp hj with ⟨_, hjnz⟩
        rw [Finset.mem_singleton]
        by_contra hne
        exact hjnz (by simp only [cfInit]; rw [if_neg hne])
      calc ((Finset.Icc 1 M).filter (fun j => cfInit K S M i j ≠ 0)).card
          ≤ ({M} : Finset ℕ).card := Finset.card_le_card hsub
        _ = 1 := Finset.card_singleton M
  · intro CF t i hne j hjt hjM
    by_cases hmem : i ∈ itmPaths K S N t
    · rw [congrFun (exDate_row_mem exp K r dt S N M CF t i hmem) j]
      rw [congrFun (exDate_row_mem exp K r dt S N M CF t i hmem) t] at hne
      simp only [exStep, fmax_eq_max] at hne ⊢
      by_cases hc : (polyfit ((itmPaths K S N t).map fun i => S i t)
            ((itmPaths K S N t).map fun i =>
              regressionTarget exp r dt M CF t i)).1 * S i t * S i t +
          (polyfit ((itmPaths K S N t).map fun i => S i t)
            ((itmPaths K S N t).map fun i =>
              regressionTarget exp r dt M CF t i)).2.1 * S i t +
          (polyfit ((itmPaths K S N t).map fun i => S i t)
            ((itmPaths K S N t).map fun i =>
              regressionTarget exp r dt M CF t i)).2.2 < max 0 (K - S i t)
      · rw [if_pos hc]
        simp [updRow, hjt, hjM]
        omega
      · rw [if_neg hc] at hne
        exact absurd rfl hne
    · rw [congrFun (exDate_row_not_mem exp K r dt S N M CF t i hmem) t] at hne
      exact absurd rfl hne

/-- Witness for C1: a concrete two-step scenario in which the interior
date records an exercise (the table entry at the date changes), making
the later entry of that path zero. -/
theorem c1_witness :
    (exDate (fun _ => (1 : ℚ) / 2) 2 0 (1 / 2) (fun _ _ => 1) 1 2
      (cfInit 2 (fun _ _ => 1) 2) 1) 0 2 = 0 :=
  (c1_single_exercise (fun _ => (1 : ℚ) / 2) 2 0 (1 / 2) (fun _ _ => 1) 1 2).2
    (cfInit 2 (fun _ _ => 1) 2) 1 0
    (by
      norm_num [exDate, itmPaths, List.range_succ, regressionTarget, futureCF,
        cfInit, fmax, polyfit, accumSums, gauss3, pivotCol0, elimCol0, pivotCol1,
        elimCol1, backSub, swap01, swap02, swap12, fabs, exStep, updRow,
        List.range'])
    2 (by decide) (by decide)

end SingleExercise

section Nonnegativity

/-- The discounted first-positive-cash-flow scan is nonnegative whenever
the discount factors are positive. -/
theorem futureCF_nonneg (exp : ℚ → ℚ) (hexp : ∀ x, 0 < exp x) (r dt : ℚ)
    (cf : ℕ → ℚ) (t : ℕ) : ∀ js : List ℕ, 0 ≤ futureCF exp r dt cf t js
  | [] => le_refl 0
  | j :: js => by
    rw [futureCF]
    split
    · exact le_of_lt (mul_pos (by assumption) (hexp _))
    · exact futureCF_nonneg exp hexp r dt cf t js

/-- Terminal payoffs are nonnegative. -/
theorem cfInit_nonneg (K : ℚ) (S : ℕ → ℕ → ℚ) (M i j : ℕ) :
    0 ≤ cfInit K S M i j := by
  unfold cfInit
  split
  · rw [fmax_eq_max]
    exact le_max_left 0 _
  · exact le_refl 0

/-- One exercise decision keeps every table entry nonnegative. -/
theorem exStep_nonneg (S : ℕ → ℕ → ℚ) (K : ℚ) (M t : ℕ) (c : ℚ × ℚ × ℚ)
    (CF : ℕ → ℕ → ℚ) (a : ℕ) (h : ∀ i j, 0 ≤ CF i j) :
    ∀ i j, 0 ≤ exStep S K M t c CF a i j := by
  intro i j
  unfold exStep
  split
  · unfold updRow
    split
    · split
      · rw [fmax_eq_max]
        exact le_max_left 0 _
      · split
        · exact le_refl 0
        · exact h i j
    · exact h i j
  · exact h i j

/-- The per-date fold keeps every table entry nonnegative. -/
theorem foldl_exStep_nonneg (S : ℕ → ℕ → ℚ) (K : ℚ) (M t : ℕ)
    (c : ℚ × ℚ × ℚ) :
    ∀ (l : List ℕ) (CF : ℕ → ℕ → ℚ), (∀ i j, 0 ≤ CF i j) →
      ∀ i j, 0 ≤ (l.foldl (exStep S K M t c) CF) i j
  | [], _, h, i, j => h i j
  | a :: l, CF, h, i, j =>
    foldl_exStep_nonneg S K M t c l (exStep S K M t c CF a)
      (exStep_nonneg S K M t c CF a h) i j

/-- An exercise date keeps every table entry nonnegative. -/
theorem exDate_nonneg (exp : ℚ → ℚ) (K r dt : ℚ) (S : ℕ → ℕ → ℚ) (N M : ℕ)
    (CF : ℕ → ℕ → ℚ) (t : ℕ) (h : ∀ i j, 0 ≤ CF i j) :
    ∀ i j, 0 ≤ (exDate exp K r dt S N M CF t) i j := by
  intro i j
  unfold exDate
  split
  · exact h i j
  · exact foldl_exStep_nonneg _ _ _ _ _ _ _ h i j

/-- The whole backward induction keeps every table entry nonnegative. -/
theorem runFrom_nonneg (exp : ℚ → ℚ) (K r dt : ℚ) (S : ℕ → ℕ → ℚ) (N M : ℕ) :
    ∀ (t : ℕ) (CF : ℕ → ℕ → ℚ), (∀ i j, 0 ≤ CF i j) →
      ∀ i j, 0 ≤ (runFrom exp K r dt S N M t CF) i j
  | 0, _, h, i, j => h i j
  | t + 1, CF, h, i, j =>
    runFrom_nonneg exp K r dt S N M t (exDate exp K r dt S N M CF (t + 1))
      (exDate_nonneg exp K r dt S N M CF (t + 1) h) i j

/-- **C10.** Every cash-flow table entry written during a pricing call is
nonnegative, and the price returned by every variant is nonnegative
(positive discount factors; the aggregation adds only positive entries
and divides by the path count). -/
theorem c10_price_nonneg (exp sqrt : ℚ → ℚ) (hexp : ∀ x, 0 < exp x)
    (K r dt : ℚ) (S : ℕ → ℕ → ℚ) (N M : ℕ) (Z : ℕ → ℚ) (Z2 : ℕ → ℕ → ℚ)
    (cfg : SimConfig) :
    (∀ i j, 0 ≤ finalCF exp K r dt S N M i j) ∧
    0 ≤ lsmPrice exp K r dt S N M ∧
    0 ≤ price_american_put_lsm_cpp exp sqrt Z cfg ∧
    0 ≤ price_american_put_lsm_arena exp sqrt Z cfg ∧
    (∀ q lane, price_american_put_lsm_simd lane exp sqrt Z cfg = Except.ok q →
      0 ≤ q) ∧
    (∀ q lane, price_american_put_lsm_ultimate lane exp sqrt Z2 cfg = Except.ok q →
      0 ≤ q) := by
  have hfin : ∀ (K r dt : ℚ) (S : ℕ → ℕ → ℚ) (N M : ℕ) (i j : ℕ),
      0 ≤ finalCF exp K r dt S N M i j := by
    intro K r dt S N M i j
    exact runFrom_nonneg exp K r dt S N M (M - 1) (cfInit K S M)
      (fun i j => cfInit_nonneg K S M i j) i j
  have hprice : ∀ (K r dt : ℚ) (S : ℕ → ℕ → ℚ) (N M : ℕ),
      0 ≤ lsmPrice exp K r dt S N M := by
    intro K r dt S N M
    unfold lsmPrice
    rw [foldl_add_eq_sum, zero_add]
    refine div_nonneg (Finset.sum_nonneg fun i _ => ?_) (Nat.cast_nonneg N)
    exact futureCF_nonneg exp hexp r dt _ 0 _
  refine ⟨hfin K r dt S N M, hprice K r dt S N M, hprice _ _ _ _ _ _,
    hprice _ _ _ _ _ _, ?_, ?_⟩
  · intro q lane hq
    unfold price_american_put_lsm_simd at hq
    split at hq
    · cases hq
      exact hprice _ _ _ _ _ _
    · cases hq
  · intro q lane hq
    unfold price_american_put_lsm_ultimate at hq
    split at hq
    · cases hq
      exact hprice _ _ _ _ _ _
    · cases hq

/-- Witness for C10 at a concrete configuration. -/
theorem c10_witness :
    0 ≤ price_american_put_lsm_cpp (fun _ => 1) (fun _ => 1) (fun _ => 0)
      ⟨1, 2, 1, 0, 0, 1, 1⟩ :=
  (c10_price_nonneg (fun _ => 1) (fun _ => 1) (fun _ => by norm_num) 0 0 0
    (fun _ _ => 0) 0 0 (fun _ => 0) (fun _ _ => 0) ⟨1, 2, 1, 0, 0, 1, 1⟩).2.2.1

end Nonnegativity

section Validation

/-- **C3 (amended).** With `num_paths` not divisible by the lane width,
the SIMD and ultimate variants fail with the declared ConfigurationError
and no pricing computation happens (the result does not depend on any
other input); however, the ultimate variant has already executed
`arena.reset()` when it throws, so the caller-supplied arena is left
with offset 0 rather than untouched. -/
theorem c3_lane_mismatch (lane : ℕ) (exp sqrt : ℚ → ℚ) (Z : ℕ → ℚ)
    (Z2 : ℕ → ℕ → ℚ) (cfg : SimConfig) (a : Arena)
    (h : cfg.num_paths % lane ≠ 0) :
    price_american_put_lsm_simd lane exp sqrt Z cfg =
      Except.error PricerError.laneMismatch ∧
    price_american_put_lsm_ultimate lane exp sqrt Z2 cfg =
      Except.error PricerError.laneMismatch ∧
    ultimate_arena_at_failure lane cfg a = some (Arena.reset a) ∧
    (Arena.reset a).offset = 0 := by
  refine ⟨?_, ?_, ?_, rfl⟩
  · unfold price_american_put_lsm_simd
    rw [if_neg h]
  · unfold price_american_put_lsm_ultimate
    rw [if_neg h]
  · unfold ultimate_arena_at_failure
    rw [if_neg h]

/-- Witness for C3 at a concrete mismatching configuration. -/
theorem c3_witness :
    price_american_put_lsm_simd 4 (fun _ => 1) (fun _ => 1) (fun _ => 0)
      ⟨1, 2, 1, 0, 0, 3, 1⟩ = Except.error PricerError.laneMismatch ∧
    ultimate_arena_at_failure 4 ⟨1, 2, 1, 0, 0, 3, 1⟩ ⟨100, 5⟩ =
      some (Arena.reset ⟨100, 5⟩) :=
  ⟨(c3_lane_mismatch 4 (fun _ => 1) (fun _ => 1) (fun _ => 0) (fun _ _ => 0)
      ⟨1, 2, 1, 0, 0, 3, 1⟩ ⟨100, 5⟩ (by decide)).1,
   (c3_lane_mismatch 4 (fun _ => 1) (fun _ => 1) (fun _ => 0) (fun _ _ => 0)
      ⟨1, 2, 1, 0, 0, 3, 1⟩ ⟨100, 5⟩ (by decide)).2.2.1⟩

/-- Counterexample to C3 as stated: a passed-in arena with nonzero
offset IS modified before the divisibility check — the failing ultimate
call leaves it reset to offset 0, not in its original state. -/
theorem c3_counterexample :
    ultimate_arena_at_failure 4 ⟨1, 2, 1, 0, 0, 3, 1⟩ ⟨100, 5⟩ =
      some ⟨100, 0⟩ ∧ (⟨100, 0⟩ : Arena) ≠ ⟨100, 5⟩ := by
  constructor
  · unfold ultimate_arena_at_failure
    rw [if_neg (by decide : ¬(3 % 4 = 0))]
    rfl
  · decide

/-- **C2 (amended).** The only configuration validation any pricing
entry point performs is the lane-width divisibility check of the SIMD
and ultimate variants: those two fail exactly when
`num_paths % lane ≠ 0` and otherwise return a price whatever
`num_steps`, `num_paths`, `T` and `sigma` are; the scalar and arena
entry points validate nothing and always return a value (see the
counterexample for a concrete invalid call that returns a price). -/
theorem c2_only_lane_validation (lane : ℕ) (exp sqrt : ℚ → ℚ) (Z : ℕ → ℚ)
    (Z2 : ℕ → ℕ → ℚ) (cfg : SimConfig) :
    (cfg.num_paths % lane ≠ 0 →
      price_american_put_lsm_simd lane exp sqrt Z cfg =
        Except.error PricerError.laneMismatch ∧
      price_american_put_lsm_ultimate lane exp sqrt Z2 cfg =
        Except.error PricerError.laneMismatch) ∧
    (cfg.num_paths % lane = 0 →
      price_american_put_lsm_simd lane exp sqrt Z cfg =
        Except.ok (lsmPrice exp cfg.K cfg.r cfg.dt (S_simd exp sqrt cfg Z)
          cfg.num_paths cfg.num_steps) ∧
      price_american_put_lsm_ultimate lane exp sqrt Z2 cfg =
        Except.ok (lsmPrice exp cfg.K cfg.r cfg.dt (S_ult exp sqrt cfg Z2)
          cfg.num_paths cfg.num_steps)) := by
  constructor
  · intro h
    constructor
    · unfold price_american_put_lsm_simd
      rw [if_neg h]
    · unfold price_american_put_lsm_ultimate
      rw [if_neg h]
  · intro h
    constructor
    · unfold price_american_put_lsm_simd
      rw [if_pos h]
    · unfold price_american_put_lsm_ultimate
      rw [if_pos h]

/-- Witness for C2: an invalid configuration (`num_steps = 0`) with a
lane-compatible path count is not rejected by the SIMD variant. -/
theorem c2_witness :
    price_american_put_lsm_simd 4 (fun _ => 1) (fun _ => 1) (fun _ => 0)
        ⟨1, 2, 1, 0, 0, 4, 0⟩ =
      Except.ok (lsmPrice (fun _ => 1) 2 0 (SimConfig.dt ⟨1, 2, 1, 0, 0, 4, 0⟩)
        (S_simd (fun _ => 1) (fun _ => 1) ⟨1, 2, 1, 0, 0, 4, 0⟩ (fun _ => 0)) 4 0) :=
  ((c2_only_lane_validation 4 (fun _ => 1) (fun _ => 1) (fun _ => 0) (fun _ _ => 0)
    ⟨1, 2, 1, 0, 0, 4, 0⟩).2 (by decide)).1

/-- Counterexample to C2 as stated: the scalar entry point, called with
the invalid configuration `num_steps = 0` (violating `num_steps ≥ 1`),
does not raise any error — it returns the price 0. -/
theorem c2_counterexample :
    price_american_put_lsm_cpp (fun _ => 1) (fun _ => 1) (fun _ => 0)
      ⟨1, 2, 1, 0, 0, 1, 0⟩ = 0 := by
  norm_num [price_american_put_lsm_cpp, lsmPrice, finalCF, runFrom, futureCF,
    List.range', List.range_succ]

end Validation

section Degenerate

/-- The power sums of `n` identical `(x, y)` samples. -/
theorem sums_replicate (x y : ℚ) :
    ∀ (n : ℕ) (s : PowerSums),
      List.foldl accumSums s (List.replicate n (x, y)) =
        ⟨s.S_x + n * x, s.S_y + n * y, s.S_xx + n * (x * x),
         s.S_xy + n * (x * y), s.S_xxx + n * (x * x * x),
         s.S_xxy + n * (x * x * y), s.S_xxxx + n * (x * x * x * x)⟩
  | 0, s => by
    cases s
    simp
  | n + 1, s => by
    rw [List.replicate_succ, List.foldl_cons, sums_replicate x y n]
    cases s
    simp only [accumSums, LinSys3.mk.injEq, PowerSums.mk.injEq]
    refine ⟨?_, ?_, ?_, ?_, ?_, ?_, ?_⟩ <;> push_cast <;> ring

/-- Column-0 pivoting and elimination on the rank-1 normal system of
identical samples: whatever row the pivot search picks, the top row is a
nonzero multiple `lam` of `(1, x, x²)` with right-hand side `lam·y`, and
the two lower rows cancel exactly. -/
theorem gauss_rank1 (n x y : ℚ) (hn : n ≠ 0) :
    ∃ lam : ℚ, lam ≠ 0 ∧
      elimCol0 (pivotCol0
        ⟨n, n * x, n * (x * x), n * x, n * (x * x), n * (x * x * x),
         n * (x * x), n * (x * x * x), n * (x * x * x * x),
         n * y, n * (x * y), n * (x * x * y)⟩) =
      ⟨lam, lam * x, lam * (x * x), 0, 0, 0, 0, 0, 0, lam * y, 0, 0⟩ := by
  unfold pivotCol0
  split_ifs with h1 h2 h3
  · -- pivot row 2 after beating both comparisons
    have hx : x ≠ 0 := by
      intro he
      rw [fabs_eq_abs, fabs_eq_abs] at h1
      rw [he] at h1
      simp at h1
      exact absurd h1 (not_lt.mpr (abs_nonneg n))
    have hd : n * (x * x) ≠ 0 := mul_ne_zero hn (mul_ne_zero hx hx)
    refine ⟨n * (x * x), hd, ?_⟩
    simp only [elimCol0, swap02, LinSys3.mk.injEq]
    refine ⟨?_, ?_, ?_, ?_, ?_, ?_, ?_, ?_, ?_, ?_, ?_, ?_⟩ <;>
      first
      | trivial
      | ring1
      | (rw [sub_eq_zero, div_mul_eq_mul_div, eq_div_iff hd] <;> ring1)
  · -- pivot row 1
    have hx : x ≠ 0 := by
      intro he
      rw [fabs_eq_abs, fabs_eq_abs] at h1
      rw [he] at h1
      simp at h1
      exact absurd h1 (not_lt.mpr (abs_nonneg n))
    have hd : n * x ≠ 0 := mul_ne_zero hn hx
    refine ⟨n * x, hd, ?_⟩
    simp only [elimCol0, swap01, LinSys3.mk.injEq]
    refine ⟨?_, ?_, ?_, ?_, ?_, ?_, ?_, ?_, ?_, ?_, ?_, ?_⟩ <;>
      first
      | trivial
      | ring1
      | (rw [sub_eq_zero, div_mul_eq_mul_div, eq_div_iff hd] <;> ring1)
  · -- pivot row 2 from the second comparison only
    have hx : x ≠ 0 := by
      intro he
      rw [fabs_eq_abs, fabs_eq_abs] at h3
      rw [he] at h3
      simp at h3
      exact absurd h3 (not_lt.mpr (abs_nonneg n))
    have hd : n * (x * x) ≠ 0 := mul_ne_zero hn (mul_ne_zero hx hx)
    refine ⟨n * (x * x), hd, ?_⟩
    simp only [elimCol0, swap02, LinSys3.mk.injEq]
    refine ⟨?_, ?_, ?_, ?_, ?_, ?_, ?_, ?_, ?_, ?_, ?_, ?_⟩ <;>
      first
      | trivial
      | ring1
      | (rw [sub_eq_zero, div_mul_eq_mul_div, eq_div_iff hd] <;> ring1)
  · -- no swap, pivot row 0
    refine ⟨n, hn, ?_⟩
    simp only [elimCol0, LinSys3.mk.injEq]
    refine ⟨?_, ?_, ?_, ?_, ?_, ?_, ?_, ?_, ?_, ?_, ?_, ?_⟩ <;>
      first
      | trivial
      | ring1
      | (rw [sub_eq_zero, div_mul_eq_mul_div, eq_div_iff hn] <;> ring1)

/-- Column-1 pivoting, column-1 elimination and back-substitution after
the rank-1 collapse: the two zero rows produce `0/0 = 0` coefficients
(the embedded counterpart of the IEEE degeneracy the source tolerates)
and the constant coefficient solves to `y`. -/
theorem tail_rank1 (lam x y : ℚ) (hlam : lam ≠ 0) :
    backSub (elimCol1 (pivotCol1
      ⟨lam, lam * x, lam * (x * x), 0, 0, 0, 0, 0, 0, lam * y, 0, 0⟩)) =
      (y, 0, 0) := by
  have hpiv : pivotCol1
      (⟨lam, lam * x, lam * (x * x), 0, 0, 0, 0, 0, 0, lam * y, 0, 0⟩ : LinSys3) =
      ⟨lam, lam * x, lam * (x * x), 0, 0, 0, 0, 0, 0, lam * y, 0, 0⟩ := by
    unfold pivotCol1
    rw [if_neg (lt_irrefl _)]
  rw [hpiv]
  simp only [elimCol1, backSub]
  norm_num
  field_simp

/-- `polyfit` on `n ≥ 1` identical samples `(x, y)` returns the constant
fit `(0, 0, y)`. -/
theorem polyfit_replicate (n : ℕ) (hn : n ≠ 0) (x y : ℚ) :
    polyfit (List.replicate n x) (List.replicate n y) = (0, 0, y) := by
  have hnq : (n : ℚ) ≠ 0 := Nat.cast_ne_zero.mpr hn
  unfold polyfit
  rw [List.zip_replicate, min_self, sums_replicate x y n]
  simp only [List.length_replicate, zero_add]
  obtain ⟨lam, hlam, he⟩ := gauss_rank1 (n : ℚ) x y hnq
  rw [gauss3, he, tail_rank1 lam x y hlam]

/-- With `sigma = 0` and `r = 0` every step multiplies by `exp 0 = 1`, so
the whole scalar lattice stays at `S0`. -/
theorem S_cpp_const (exp sqrt : ℚ → ℚ) (Z : ℕ → ℚ) (cfg : SimConfig)
    (hexp0 : exp 0 = 1) (hs : cfg.sigma = 0) (hr : cfg.r = 0) :
    ∀ i j, S_cpp exp sqrt cfg Z i j = cfg.S0 := by
  intro i j
  induction j with
  | zero => rfl
  | succ j ih =>
    have heq : S_cpp exp sqrt cfg Z i (j + 1) =
        S_cpp exp sqrt cfg Z i j *
          exp ((cfg.r - 0.5 * cfg.sigma * cfg.sigma) * cfg.dt +
            cfg.sigma * sqrt cfg.dt * Z (i * cfg.num_steps + j)) := rfl
    rw [heq, ih, hs, hr]
    have h0 : ((0 : ℚ) - 0.5 * 0 * 0) * cfg.dt +
        0 * sqrt cfg.dt * Z (i * cfg.num_steps + j) = 0 := by ring
    rw [h0, hexp0, mul_one]

/-- Scanning a degenerate table whose only nonzero entry sits at the
terminal date yields that entry, discounted from `M` back to `t`. -/
theorem futureCF_cfInit_pos (exp : ℚ → ℚ) (r dt K : ℚ) (S : ℕ → ℕ → ℚ)
    (M i t : ℕ) (hpos : 0 < cfInit K S M i M) :
    ∀ (c s : ℕ), s + c = M + 1 → s ≤ M →
      futureCF exp r dt (cfInit K S M i) t (List.range' s c) =
        cfInit K S M i M * exp (-(r * ((M : ℚ) - (t : ℚ)) * dt))
  | 0, s, hsc, hsM => absurd hsc (by omega)
  | c + 1, s, hsc, hsM => by
    rw [List.range'_succ, futureCF]
    by_cases hs : s = M
    · subst hs
      rw [if_pos hpos]
    · have hz : cfInit K S M i s = 0 := by
        simp only [cfInit]
        rw [if_neg hs]
      rw [hz, if_neg (lt_irrefl 0)]
      exact futureCF_cfInit_pos exp r dt K S M i t hpos c (s + 1) (by omega) (by omega)

/-- Scanning an identically zero cash-flow row yields zero. -/
theorem futureCF_of_zero (exp : ℚ → ℚ) (r dt : ℚ) (cf : ℕ → ℚ) (t : ℕ)
    (h : ∀ j, cf j = 0) : ∀ js : List ℕ, futureCF exp r dt cf t js = 0
  | [] => rfl
  | j :: js => by
    rw [futureCF, h j, if_neg (lt_irrefl 0)]
    exact futureCF_of_zero exp r dt cf t h js

/-- If no selected path satisfies `intrinsic > continuation`, the
per-date fold leaves the table untouched. -/
theorem foldl_exStep_noop (S : ℕ → ℕ → ℚ) (K : ℚ) (M t : ℕ) (c : ℚ × ℚ × ℚ) :
    ∀ (l : List ℕ) (CF : ℕ → ℕ → ℚ),
      (∀ a ∈ l, ¬(c.1 * S a t * S a t + c.2.1 * S a t + c.2.2 <
        fmax 0 (K - S a t))) →
      l.foldl (exStep S K M t c) CF = CF
  | [], _, _ => rfl
  | a :: l, CF, h => by
    rw [List.foldl_cons]
    have ha : exStep S K M t c CF a = CF := by
      simp only [exStep]
      rw [if_neg (h a (List.mem_cons_self a l))]
    rw [ha]
    exact foldl_exStep_noop S K M t c l CF
      (fun a' ha' => h a' (List.mem_cons_of_mem a ha'))

/-- If every interior date leaves the initial table untouched, so does
the whole backward induction. -/
theorem runFrom_noop (exp : ℚ → ℚ) (K r dt : ℚ) (S : ℕ → ℕ → ℚ) (N M : ℕ)
    (h : ∀ t, 1 ≤ t → t < M →
      exDate exp K r dt S N M (cfInit K S M) t = cfInit K S M) :
    ∀ t, t < M → runFrom exp K r dt S N M t (cfInit K S M) = cfInit K S M
  | 0, _ => rfl
  | t + 1, hlt => by
    rw [runFrom, h (t + 1) (by omega) hlt]
    exact runFrom_noop exp K r dt S N M h t (by omega)

/-- On a constant in-the-money lattice the fitted continuation value
equals the intrinsic value exactly, so the strict `intrinsic >
continuation` test fails on every path and the exercise date changes
nothing. -/
theorem exDate_const_noop (exp : ℚ → ℚ) (K r dt S0v : ℚ) (S : ℕ → ℕ → ℚ)
    (N M t : ℕ) (hS : ∀ i j, S i j = S0v) (hexp0 : exp 0 = 1) (hr : r = 0)
    (hK : 0 < K - S0v) (hN : 1 ≤ N) (htM : t < M) :
    exDate exp K r dt S N M (cfInit K S M) t = cfInit K S M := by
  have hcfM : ∀ i, cfInit K S M i M = K - S0v := by
    intro i
    simp only [cfInit, if_pos]
    rw [hS, fmax_eq_max, max_eq_right hK.le]
  have hitm : itmPaths K S N t = List.range N := by
    unfold itmPaths
    apply List.filter_eq_self.mpr
    intro i _
    rw [hS i t]
    exact decide_eq_true hK
  have hemp : ¬((itmPaths K S N t).isEmpty = true) := by
    rw [hitm]
    simp only [List.isEmpty_iff, List.range_eq_nil]
    omega
  have hxs : (itmPaths K S N t).map (fun i => S i t) = List.replicate N S0v := by
    rw [hitm]
    refine List.eq_replicate_iff.mpr ⟨by simp, ?_⟩
    intro b hb
    rcases List.mem_map.mp hb with ⟨i, _, hbi⟩
    rw [← hbi, hS]
  have hys : (itmPaths K S N t).map
      (fun i => regressionTarget exp r dt M (cfInit K S M) t i) =
      List.replicate N (K - S0v) := by
    rw [hitm]
    refine List.eq_replicate_iff.mpr ⟨by simp, ?_⟩
    intro b hb
    rcases List.mem_map.mp hb with ⟨i, _, hbi⟩
    rw [← hbi]
    unfold regressionTarget
    rw [futureCF_cfInit_pos exp r dt K S M i t
      (by rw [hcfM i]; exact hK) (M - t) (t + 1) (by omega) (by omega)]
    rw [hcfM i, hr]
    have h0 : -((0 : ℚ) * ((M : ℚ) - (t : ℚ)) * dt) = 0 := by ring
    rw [h0, hexp0, mul_one]
  simp only [exDate]
  rw [if_neg hemp, hxs, hys, polyfit_replicate N (by omega) S0v (K - S0v)]
  apply foldl_exStep_noop
  intro a _
  rw [hS a t, fmax_eq_max, max_eq_right hK.le]
  have hc : (0 : ℚ) * S0v * S0v + (0 : ℚ) * S0v + (K - S0v) = K - S0v := by ring
  rw [show ((0 : ℚ), (0 : ℚ), K - S0v).1 * S0v * S0v +
      ((0 : ℚ), (0 : ℚ), K - S0v).2.1 * S0v +
      ((0 : ℚ), (0 : ℚ), K - S0v).2.2 = K - S0v from hc]
  exact lt_irrefl _

/-- **C5.** With `sigma = 0` and `r = 0` (and `exp 0 = 1`), the scalar
variant returns exactly `max(0, K - S0)` for any draw stream and any
valid path/step counts; the backward induction never overwrites the
terminal payoffs (the degenerate all-identical regression makes
continuation equal intrinsic, and the strict comparison fails). -/
theorem c5_sigma_zero_r_zero (exp sqrt : ℚ → ℚ) (Z : ℕ → ℚ)
    (cfg : SimConfig) (hexp0 : exp 0 = 1) (hs : cfg.sigma = 0)
    (hr : cfg.r = 0) (hN : 1 ≤ cfg.num_paths) (hM : 1 ≤ cfg.num_steps) :
    price_american_put_lsm_cpp exp sqrt Z cfg = max 0 (cfg.K - cfg.S0) ∧
    finalCF exp cfg.K cfg.r cfg.dt (S_cpp exp sqrt cfg Z)
        cfg.num_paths cfg.num_steps =
      cfInit cfg.K (S_cpp exp sqrt cfg Z) cfg.num_steps := by
  have hS := S_cpp_const exp sqrt Z cfg hexp0 hs hr
  have hNq : ((cfg.num_paths : ℚ)) ≠ 0 := Nat.cast_ne_zero.mpr (by omega)
  rcases lt_or_le 0 (cfg.K - cfg.S0) with hK | hK
  · -- strike above spot: every path pays K - S0 at the terminal date
    have hfin : finalCF exp cfg.K cfg.r cfg.dt (S_cpp exp sqrt cfg Z)
        cfg.num_paths cfg.num_steps =
        cfInit cfg.K (S_cpp exp sqrt cfg Z) cfg.num_steps := by
      unfold finalCF
      exact runFrom_noop exp cfg.K cfg.r cfg.dt _ _ _
        (fun t _ h2 => exDate_const_noop exp cfg.K cfg.r cfg.dt cfg.S0 _
          cfg.num_paths cfg.num_steps t hS hexp0 hr hK hN h2)
        (cfg.num_steps - 1) (by omega)
    refine ⟨?_, hfin⟩
    have hcfM : ∀ i, cfInit cfg.K (S_cpp exp sqrt cfg Z) cfg.num_steps i
        cfg.num_steps = cfg.K - cfg.S0 := by
      intro i
      simp only [cfInit, if_pos]
      rw [hS, fmax_eq_max, max_eq_right hK.le]
    unfold price_american_put_lsm_cpp lsmPrice
    rw [foldl_add_eq_sum, zero_add, hfin]
    have hterm : ∀ i, futureCF exp cfg.r cfg.dt
        (cfInit cfg.K (S_cpp exp sqrt cfg Z) cfg.num_steps i) 0
        (List.range' 1 cfg.num_steps) = cfg.K - cfg.S0 := by
      intro i
      rw [futureCF_cfInit_pos exp cfg.r cfg.dt cfg.K (S_cpp exp sqrt cfg Z)
        cfg.num_steps i 0 (by rw [hcfM i]; exact hK) cfg.num_steps 1
        (by omega) (by omega)]
      rw [hcfM i, hr]
      have h0 : -((0 : ℚ) * ((cfg.num_steps : ℚ) - ((0 : ℕ) : ℚ)) * cfg.dt) = 0 := by
        ring
      rw [h0, hexp0, mul_one]
    rw [Finset.sum_congr rfl (fun i _ => hterm i), Finset.sum_const,
      Finset.card_range, nsmul_eq_mul, mul_div_cancel_left₀ _ hNq]
    exact (max_eq_right hK.le).symm
  · -- strike at or below spot: the table is identically zero
    have hrow : ∀ i j, cfInit cfg.K (S_cpp exp sqrt cfg Z) cfg.num_steps i j = 0 := by
      intro i j
      simp only [cfInit]
      split
      · rw [hS, fmax_eq_max, max_eq_left hK]
      · rfl
    have hnoop : ∀ t, exDate exp cfg.K cfg.r cfg.dt (S_cpp exp sqrt cfg Z)
        cfg.num_paths cfg.num_steps
        (cfInit cfg.K (S_cpp exp sqrt cfg Z) cfg.num_steps) t =
        cfInit cfg.K (S_cpp exp sqrt cfg Z) cfg.num_steps := by
      intro t
      have hitm : itmPaths cfg.K (S_cpp exp sqrt cfg Z) cfg.num_paths t = [] := by
        unfold itmPaths
        apply List.filter_eq_nil_iff.mpr
        intro i _
        rw [hS i t]
        simp only [decide_eq_true_eq]
        exact not_lt.mpr hK
      simp only [exDate]
      rw [hitm]
      rfl
    have hfin : finalCF exp cfg.K cfg.r cfg.dt (S_cpp exp sqrt cfg Z)
        cfg.num_paths cfg.num_steps =
        cfInit cfg.K (S_cpp exp sqrt cfg Z) cfg.num_steps := by
      unfold finalCF
      exact runFrom_noop exp cfg.K cfg.r cfg.dt _ _ _
        (fun t _ _ => hnoop t) (cfg.num_steps - 1) (by omega)
    refine ⟨?_, hfin⟩
    unfold price_american_put_lsm_cpp lsmPrice
    rw [foldl_add_eq_sum, zero_add, hfin]
    rw [Finset.sum_congr rfl
      (fun i _ => futureCF_of_zero exp cfg.r cfg.dt _ 0 (hrow i) _)]
    rw [Finset.sum_const, smul_zero, zero_div]
    exact (max_eq_left hK).symm

/-- Witness for C5 at a concrete degenerate configuration. -/
theorem c5_witness :
    price_american_put_lsm_cpp (fun _ => 1) (fun _ => 1) (fun _ => 0)
      ⟨1, 2, 1, 0, 0, 1, 1⟩ = max 0 ((2 : ℚ) - 1) :=
  (c5_sigma_zero_r_zero (fun _ => 1) (fun _ => 1) (fun _ => 0)
    ⟨1, 2, 1, 0, 0, 1, 1⟩ rfl rfl rfl (by decide) (by decide)).1

end Degenerate
